import Mathlib

/-!
Verification of the Excel Data Pool service (`src/main.py`, `src/database.py`)
against its natural-language specification.

Shallow embedding conventions:
* Python strings are modelled as `List Char` (`PyStr`); a spreadsheet cell that
  may be missing/NA is an `Option PyStr` (`none` = pandas NA).
* `str.strip` is modelled by `pyStrip` (dropping the ASCII whitespace
  characters recognised by `Char.isWhitespace`); `str.isdigit` by
  `Char.isDigit` (ASCII digits); `str.lower` by `Char.toLower`.
* Dates are modelled as naturals ordered like calendar dates
  (`datetime.date` values compare chronologically; only the order matters
  to the code under verification).
* The SQLite store is modelled as in-memory lists together with the
  autoincrement counter `next_id`; the `unique=True` index on
  `applicants.phone` (src/database.py line 21) is modelled by an explicit
  duplicate check performed when an applicant row is flushed, failing with
  an `IntegrityError`-style message exactly when an existing row holds the
  same phone string (SQLite compares the stored strings; two empty strings
  collide).
-/

abbrev PyStr := List Char

/-- Model of Python `str.strip()`: drop leading and trailing whitespace. -/
def pyStrip (l : PyStr) : PyStr :=
  ((l.dropWhile Char.isWhitespace).reverse.dropWhile Char.isWhitespace).reverse

/-- Model of Python `str.lower()` (ASCII case folding). -/
def pyLower (l : PyStr) : PyStr := l.map Char.toLower

/-- `clean_phone` from src/main.py lines 33-51, translated clause by clause.
A `none` argument models a pandas-NA cell (`pd.isna`). -/
def clean_phone (phone : Option PyStr) : PyStr :=
  match phone with
  | none => []
  | some s =>
    let phone_str := pyStrip s
    let digits := phone_str.filter Char.isDigit
    if List.isPrefixOf ['0'] digits && digits.length == 10 then
      "+251".toList ++ digits.drop 1
    else if List.isPrefixOf ['2', '5', '1'] digits && digits.length == 12 then
      '+' :: digits
    else if List.isPrefixOf ['9'] digits && digits.length == 9 then
      "+251".toList ++ digits
    else
      phone_str

/-- `clean_text` from src/main.py lines 53-57. -/
def clean_text (text : Option PyStr) : PyStr :=
  match text with
  | none => []
  | some s => pyStrip s

/-- Written from the words of the specification's four-branch description of
phone normalization (spec §4.1 / claim C5), to be compared with the
source-derived `clean_phone`: strip non-digits; leading `'0'` with exactly 10
digits gives `"+251"` followed by the last 9 digits; a 12-digit string already
starting with the country digits `"251"` gets `"+"` prefixed; a 9-digit string
starting with `'9'` gets `"+251"` prefixed; anything else is returned as the
trimmed original, and an absent input yields the empty string. -/
def clean_phoneSpec (phone : Option PyStr) : PyStr :=
  match phone with
  | none => []
  | some s =>
    let trimmed := pyStrip s
    let digits := trimmed.filter Char.isDigit
    if digits.head? = some '0' ∧ digits.length = 10 then
      "+251".toList ++ digits.drop (digits.length - 9)
    else if "251".toList <+: digits ∧ digits.length = 12 then
      '+' :: digits
    else if digits.head? = some '9' ∧ digits.length = 9 then
      "+251".toList ++ digits
    else
      trimmed

theorem singleton_prefix_iff_head (c : Char) (l : List Char) :
    [c] <+: l ↔ l.head? = some c := by
  cases l with
  | nil => simp
  | cons x xs =>
    constructor
    · rintro ⟨t, ht⟩
      injection ht with h _
      simp [h]
    · intro h
      simp only [List.head?_cons, Option.some_inj] at h
      exact ⟨xs, by simp [h]⟩

/-- C5. The source `clean_phone` agrees with the four-branch specification
of phone normalization on every input. -/
theorem clean_phone_eq_spec (phone : Option PyStr) :
    clean_phone phone = clean_phoneSpec phone := by
  cases phone with
  | none => rfl
  | some s =>
    unfold clean_phone clean_phoneSpec
    simp only
    set d := (pyStrip s).filter Char.isDigit with hd
    have e1 : (List.isPrefixOf ['0'] d && d.length == 10) = true ↔
        (d.head? = some '0' ∧ d.length = 10) := by
      simp [singleton_prefix_iff_head]
    have e2 : (List.isPrefixOf ['2', '5', '1'] d && d.length == 12) = true ↔
        ("251".toList <+: d ∧ d.length = 12) := by
      have h251 : "251".toList = ['2', '5', '1'] := rfl
      simp [h251]
    have e3 : (List.isPrefixOf ['9'] d && d.length == 9) = true ↔
        (d.head? = some '9' ∧ d.length = 9) := by
      simp [singleton_prefix_iff_head]
    by_cases h1 : d.head? = some '0' ∧ d.length = 10
    · rw [if_pos (e1.mpr h1), if_pos h1, h1.2]
    · rw [if_neg (fun hc => h1 (e1.mp hc)), if_neg h1]
      by_cases h2 : "251".toList <+: d ∧ d.length = 12
      · rw [if_pos (e2.mpr h2), if_pos h2]
      · rw [if_neg (fun hc => h2 (e2.mp hc)), if_neg h2]
        by_cases h3 : d.head? = some '9' ∧ d.length = 9
        · rw [if_pos (e3.mpr h3), if_pos h3]
        · rw [if_neg (fun hc => h3 (e3.mp hc)), if_neg h3]

theorem dropWhile_head_false {α : Type} (p : α → Bool) (l : List α) (c : α) (t : List α)
    (h : l.dropWhile p = c :: t) : p c = false := by
  induction l with
  | nil => simp [List.dropWhile] at h
  | cons x xs ih =>
    rw [List.dropWhile_cons] at h
    by_cases hx : p x = true
    · rw [if_pos hx] at h; exact ih h
    · rw [if_neg hx] at h
      injection h with h1 _
      subst h1
      simpa using hx

theorem dropWhile_self_of_head_false {α : Type} (p : α → Bool) (c : α) (t : List α)
    (h : p c = false) : (c :: t).dropWhile p = c :: t := by
  simp [List.dropWhile_cons, h]

theorem dropWhile_idem {α : Type} (p : α → Bool) (l : List α) :
    (l.dropWhile p).dropWhile p = l.dropWhile p := by
  cases hE : l.dropWhile p with
  | nil => simp
  | cons c t => exact dropWhile_self_of_head_false p c t (dropWhile_head_false p l c t hE)

theorem dropWhile_self_of_all_false {α : Type} (p : α → Bool) (l : List α)
    (h : ∀ c ∈ l, p c = false) : l.dropWhile p = l := by
  cases l with
  | nil => rfl
  | cons c t => exact dropWhile_self_of_head_false p c t (h c (by simp))

theorem reverse_dropWhile_reverse_pref {α : Type} (p : α → Bool) (A : List α) :
    (A.reverse.dropWhile p).reverse <+: A := by
  have hsuf : A.reverse.dropWhile p <:+ A.reverse :=
    ⟨A.reverse.takeWhile p, List.takeWhile_append_dropWhile p A.reverse⟩
  have h2 := List.reverse_prefix.mpr hsuf
  rwa [List.reverse_reverse] at h2

theorem pyStrip_eq_self (l : PyStr) (h : ∀ c ∈ l, c.isWhitespace = false) :
    pyStrip l = l := by
  unfold pyStrip
  rw [dropWhile_self_of_all_false _ _ h]
  rw [dropWhile_self_of_all_false _ _ (fun c hc => h c (List.mem_reverse.mp hc))]
  exact List.reverse_reverse l

theorem pyStrip_idem (l : PyStr) : pyStrip (pyStrip l) = pyStrip l := by
  unfold pyStrip
  have hBrev : (((l.dropWhile Char.isWhitespace).reverse.dropWhile Char.isWhitespace).reverse).reverse
      = (l.dropWhile Char.isWhitespace).reverse.dropWhile Char.isWhitespace :=
    List.reverse_reverse _
  have hBdrop : (((l.dropWhile Char.isWhitespace).reverse.dropWhile Char.isWhitespace).reverse).dropWhile Char.isWhitespace
      = ((l.dropWhile Char.isWhitespace).reverse.dropWhile Char.isWhitespace).reverse := by
    cases hE : ((l.dropWhile Char.isWhitespace).reverse.dropWhile Char.isWhitespace).reverse with
    | nil => simp
    | cons b bs =>
      have hpre : ((l.dropWhile Char.isWhitespace).reverse.dropWhile Char.isWhitespace).reverse
          <+: l.dropWhile Char.isWhitespace :=
        reverse_dropWhile_reverse_pref Char.isWhitespace (l.dropWhile Char.isWhitespace)
      rw [hE] at hpre
      obtain ⟨u, hu⟩ := hpre
      have hhead : Char.isWhitespace b = false := by
        apply dropWhile_head_false Char.isWhitespace l b (bs ++ u)
        rw [← hu]
        simp
      exact dropWhile_self_of_head_false Char.isWhitespace b bs hhead
  rw [hBdrop, hBrev, dropWhile_idem]

theorem digit_not_ws (c : Char) (h : c.isDigit = true) : c.isWhitespace = false := by
  by_contra hws
  rw [Bool.not_eq_false] at hws
  have hcases : ((c = ' ' ∨ c = '\t') ∨ c = '\x0d') ∨ c = '\n' := by
    simpa [Char.isWhitespace] using hws
  rcases hcases with ((rfl | rfl) | rfl) | rfl <;> exact absurd h (by decide)

theorem clean_phone_strip (s : PyStr) :
    clean_phone (some (pyStrip s)) = clean_phone (some s) := by
  unfold clean_phone
  simp only [pyStrip_idem]

theorem clean_phone_plus251_digits (Q : List Char) (hQ : ∀ c ∈ Q, c.isDigit = true)
    (hlen : Q.length = 9) :
    clean_phone (some ("+251".toList ++ Q)) = "+251".toList ++ Q := by
  have hnws : pyStrip ("+251".toList ++ Q) = "+251".toList ++ Q := by
    apply pyStrip_eq_self
    intro c hc
    rcases List.mem_append.mp hc with h | h
    · have : c = '+' ∨ c = '2' ∨ c = '5' ∨ c = '1' := by simpa using h
      rcases this with rfl | rfl | rfl | rfl <;> rfl
    · exact digit_not_ws c (hQ c h)
  have hfil : ("+251".toList ++ Q).filter Char.isDigit = ['2', '5', '1'] ++ Q := by
    rw [List.filter_append]
    congr 1
    exact List.filter_eq_self.mpr hQ
  have c1 : (List.isPrefixOf ['0'] (['2', '5', '1'] ++ Q)
      && (['2', '5', '1'] ++ Q).length == 10) = false := by
    simp [List.isPrefixOf]
  have c2 : (List.isPrefixOf ['2', '5', '1'] (['2', '5', '1'] ++ Q)
      && (['2', '5', '1'] ++ Q).length == 12) = true := by
    simp [List.isPrefixOf, hlen]
  unfold clean_phone
  simp only [hnws, hfil, c1, c2]
  simp

theorem clean_phone_plus_twelve (d : List Char) (hdig : ∀ c ∈ d, c.isDigit = true)
    (hpre : ['2', '5', '1'] <+: d) (hlen : d.length = 12) :
    clean_phone (some ('+' :: d)) = '+' :: d := by
  have hnws : pyStrip ('+' :: d) = '+' :: d := by
    apply pyStrip_eq_self
    intro c hc
    rcases List.mem_cons.mp hc with rfl | h
    · rfl
    · exact digit_not_ws c (hdig c h)
  have hfil : ('+' :: d).filter Char.isDigit = d := by
    have hplus : Char.isDigit '+' = false := rfl
    simp [List.filter_cons, hplus, List.filter_eq_self.mpr hdig]
  obtain ⟨rest, hrest⟩ := hpre
  have c1 : (List.isPrefixOf ['0'] d && d.length == 10) = false := by
    rw [← hrest]
    simp [List.isPrefixOf]
  have c2 : (List.isPrefixOf ['2', '5', '1'] d && d.length == 12) = true := by
    rw [← hrest]
    rw [← hrest] at hlen
    simp at hlen
    simp [List.isPrefixOf]
    omega
  unfold clean_phone
  simp only [hnws, hfil, c1, c2]
  simp

theorem clean_phone_some_eval (s : PyStr) :
    clean_phone (some s) =
      (if List.isPrefixOf ['0'] ((pyStrip s).filter Char.isDigit)
          && ((pyStrip s).filter Char.isDigit).length == 10 then
        "+251".toList ++ ((pyStrip s).filter Char.isDigit).drop 1
      else if List.isPrefixOf ['2', '5', '1'] ((pyStrip s).filter Char.isDigit)
          && ((pyStrip s).filter Char.isDigit).length == 12 then
        '+' :: (pyStrip s).filter Char.isDigit
      else if List.isPrefixOf ['9'] ((pyStrip s).filter Char.isDigit)
          && ((pyStrip s).filter Char.isDigit).length == 9 then
        "+251".toList ++ (pyStrip s).filter Char.isDigit
      else pyStrip s) := rfl

/-- C6. Phone normalization is idempotent: re-cleaning the output of
`clean_phone` returns it unchanged. -/
theorem clean_phone_idempotent (x : Option PyStr) :
    clean_phone (some (clean_phone x)) = clean_phone x := by
  cases x with
  | none => rfl
  | some s =>
    set t := pyStrip s with ht
    set d := t.filter Char.isDigit with hdd
    have hd_dig : ∀ c ∈ d, c.isDigit = true := fun c hc => List.of_mem_filter hc
    by_cases hc1 : (List.isPrefixOf ['0'] d && d.length == 10) = true
    · have hval : clean_phone (some s) = "+251".toList ++ d.drop 1 := by
        rw [clean_phone_some_eval, ← ht, ← hdd, if_pos hc1]
      obtain ⟨hpre, hlen⟩ : ['0'] <+: d ∧ d.length = 10 := by
        simpa using hc1
      rw [hval]
      apply clean_phone_plus251_digits
      · exact fun c hc => hd_dig c (List.drop_subset 1 d hc)
      · simp [hlen]
    · by_cases hc2 : (List.isPrefixOf ['2', '5', '1'] d && d.length == 12) = true
      · have hval : clean_phone (some s) = '+' :: d := by
          rw [clean_phone_some_eval, ← ht, ← hdd, if_neg (by simp [hc1]), if_pos hc2]
        obtain ⟨hpre, hlen⟩ : ['2', '5', '1'] <+: d ∧ d.length = 12 := by
          simpa using hc2
        rw [hval]
        exact clean_phone_plus_twelve d hd_dig hpre hlen
      · by_cases hc3 : (List.isPrefixOf ['9'] d && d.length == 9) = true
        · have hval : clean_phone (some s) = "+251".toList ++ d := by
            rw [clean_phone_some_eval, ← ht, ← hdd, if_neg (by simp [hc1]),
              if_neg (by simp [hc2]), if_pos hc3]
          obtain ⟨hpre, hlen⟩ : ['9'] <+: d ∧ d.length = 9 := by
            simpa using hc3
          rw [hval]
          exact clean_phone_plus251_digits d hd_dig hlen
        · have hval : clean_phone (some s) = t := by
            rw [clean_phone_some_eval, ← ht, ← hdd, if_neg (by simp [hc1]),
              if_neg (by simp [hc2]), if_neg (by simp [hc3])]
          rw [hval, ht, clean_phone_strip s, hval, ht]

/-!
Data model (src/database.py).  `Applicant.id` is the autoincrement primary
key, tracked by `DB.next_id`.  The autoincrement primary key of
`applications` is omitted: no verified claim mentions it.
-/

structure Applicant where
  id : Nat
  full_name : PyStr
  phone : PyStr
  labor_id : PyStr
deriving DecidableEq, Repr

structure Application where
  applicant_id : Nat
  position : PyStr
  application_date : Nat
  source_file : PyStr
deriving DecidableEq, Repr

structure DB where
  applicants : List Applicant
  applications : List Application
  next_id : Nat
deriving DecidableEq, Repr

structure Stats where
  new_applicants : Nat
  existing_applicants : Nat
  applications_added : Nat
deriving DecidableEq, Repr

/-- One spreadsheet row of an upload: the raw cells of the four columns used
by the loop (a `none` cell is pandas-NA or an absent optional column), plus
the application date resolved by src/main.py lines 114-122 (the supplied
cell parsed with `pd.to_datetime`, or today's date when absent/unparseable
— that parsing involves no persisted state and no claim constrains it, so
the row carries the resolved date). -/
structure Row where
  raw_position : Option PyStr
  raw_phone : Option PyStr
  raw_labor_id : Option PyStr
  raw_name : Option PyStr
  app_date : Nat
deriving DecidableEq, Repr

/-- A SQLAlchemy session mid-upload: the committed database plus the
`Application` objects added but not yet flushed (the session has
`autoflush=False`, so queries see only `committed`; new applicants are
committed — and the pending applications flushed — immediately at
src/main.py line 147). -/
structure Session where
  committed : DB
  pending : List Application
  stats : Stats
deriving DecidableEq, Repr

/-- The applicant-resolution steps of src/main.py lines 124-135: search by
phone (primary, only when the cleaned phone is non-empty), then by labor id
(secondary, only when no phone match and the cleaned labor id is
non-empty). -/
def resolveApplicant (db : DB) (phone labor_id : PyStr) : Option Applicant :=
  match (if phone ≠ [] then db.applicants.find? (fun a => a.phone == phone) else none) with
  | some a => some a
  | none =>
    if labor_id ≠ [] then db.applicants.find? (fun a => a.labor_id == labor_id) else none

/-- The SQLite error message produced by the `unique=True` index on
`applicants.phone` (src/database.py line 21). -/
def integrityError : PyStr := "UNIQUE constraint failed: applicants.phone".toList

/-- One iteration of the upload row loop (src/main.py lines 107-159): clean
the cells, resolve or create the applicant, append the application record.
Creating an applicant runs `db.commit()` (line 147), which flushes the
pending application records and the new applicant row; the insert fails
with an integrity error when a committed applicant already holds the same
phone string (the unique index compares stored strings, so two empty-string
phones collide). -/
def processRow (fname : PyStr) (s : Session) (r : Row) : Except PyStr Session :=
  let phone := clean_phone r.raw_phone
  let labor_id := clean_text r.raw_labor_id
  let full_name := clean_text r.raw_name
  let position := pyLower (clean_text r.raw_position)
  match resolveApplicant s.committed phone labor_id with
  | some a =>
    .ok { s with
          pending := s.pending ++ [⟨a.id, position, r.app_date, fname⟩],
          stats := { s.stats with
                     existing_applicants := s.stats.existing_applicants + 1,
                     applications_added := s.stats.applications_added + 1 } }
  | none =>
    if s.committed.applicants.any (fun a => a.phone == phone) then
      .error integrityError
    else
      let a : Applicant := ⟨s.committed.next_id, full_name, phone, labor_id⟩
      .ok { committed := { applicants := s.committed.applicants ++ [a],
                           applications := s.committed.applications ++ s.pending,
                           next_id := s.committed.next_id + 1 },
            pending := [⟨a.id, position, r.app_date, fname⟩],
            stats := { s.stats with
                       new_applicants := s.stats.new_applicants + 1,
                       applications_added := s.stats.applications_added + 1 } }

/-- The row loop.  On the first failing row it stops with the error and the
session as it stood when the exception was raised. -/
def runRows (fname : PyStr) : Session → List Row → Option PyStr × Session
  | s, [] => (none, s)
  | s, r :: rs =>
    match processRow fname s r with
    | .ok s' => runRows fname s' rs
    | .error e => (some e, s)

/-- The persistence portion of the `/upload` handler (src/main.py lines
99-174): run the row loop from a fresh session over `db`; on success the
final `db.commit()` (line 161) flushes the remaining pending applications
and the stats are returned; on any exception `db.rollback()` (line 171)
discards the uncommitted pending records — previously committed work
remains — and the handler re-raises as HTTP 500 "Database error: ...".
Returns the handler outcome together with the persisted database state. -/
def upload_excel (fname : PyStr) (db : DB) (rows : List Row) :
    Except (Nat × PyStr) Stats × DB :=
  match runRows fname { committed := db, pending := [], stats := ⟨0, 0, 0⟩ } rows with
  | (none, s) =>
    (.ok s.stats, { s.committed with applications := s.committed.applications ++ s.pending })
  | (some e, s) => (.error (500, "Database error: ".toList ++ e), s.committed)

/-- All application records known to a session, committed first. -/
def totalApps (s : Session) : List Application := s.committed.applications ++ s.pending

theorem processRow_found (fname : PyStr) (s : Session) (r : Row) (a : Applicant)
    (h : resolveApplicant s.committed (clean_phone r.raw_phone)
        (clean_text r.raw_labor_id) = some a) :
    processRow fname s r = .ok { s with
      pending := s.pending
        ++ [⟨a.id, pyLower (clean_text r.raw_position), r.app_date, fname⟩],
      stats := { s.stats with
                 existing_applicants := s.stats.existing_applicants + 1,
                 applications_added := s.stats.applications_added + 1 } } := by
  simp only [processRow]
  rw [h]

theorem processRow_conflict (fname : PyStr) (s : Session) (r : Row)
    (h : resolveApplicant s.committed (clean_phone r.raw_phone)
        (clean_text r.raw_labor_id) = none)
    (hc : s.committed.applicants.any
        (fun a => a.phone == clean_phone r.raw_phone) = true) :
    processRow fname s r = .error integrityError := by
  simp only [processRow]
  rw [h, if_pos hc]

theorem processRow_create (fname : PyStr) (s : Session) (r : Row)
    (h : resolveApplicant s.committed (clean_phone r.raw_phone)
        (clean_text r.raw_labor_id) = none)
    (hc : s.committed.applicants.any
        (fun a => a.phone == clean_phone r.raw_phone) = false) :
    processRow fname s r = .ok
      { committed :=
          { applicants := s.committed.applicants ++
              [⟨s.committed.next_id, clean_text r.raw_name, clean_phone r.raw_phone, clean_text r.raw_labor_id⟩],
            applications := s.committed.applications ++ s.pending,
            next_id := s.committed.next_id + 1 },
        pending := [⟨s.committed.next_id, pyLower (clean_text r.raw_position), r.app_date, fname⟩],
        stats := { s.stats with
                   new_applicants := s.stats.new_applicants + 1,
                   applications_added := s.stats.applications_added + 1 } } := by
  simp only [processRow]
  rw [h, if_neg (by simp [hc])]

theorem getLast?_append_singleton {α : Type} (l : List α) (x : α) :
    (l ++ [x]).getLast? = some x := List.getLast?_concat l

theorem option_get_eq {α : Type} (o : Option α) (a : α) (h : o = some a)
    (hs : o.isSome = true) : o.get hs = a := by
  subst h; rfl

/-- Written from the words of the specification's lookup-order description
(spec §4.2 / claim C3), to be compared with the behaviour of the row loop:
(1) a non-empty phone with an exact match returns that applicant unchanged;
(2) otherwise a non-empty secondary id with an exact match returns that
applicant; (3) otherwise a new applicant is created from the supplied
cleaned fields.  Returns (applicant, wasCreated, resulting directory). -/
def resolveOrCreateSpec (db : DB) (phone secondaryId fullName : PyStr) :
    Applicant × Bool × DB :=
  if h : phone ≠ [] ∧ (db.applicants.find? (fun a => a.phone == phone)).isSome then
    ((db.applicants.find? (fun a => a.phone == phone)).get h.2, false, db)
  else if h2 : secondaryId ≠ []
      ∧ (db.applicants.find? (fun a => a.labor_id == secondaryId)).isSome then
    ((db.applicants.find? (fun a => a.labor_id == secondaryId)).get h2.2, false, db)
  else
    let a : Applicant := ⟨db.next_id, fullName, phone, secondaryId⟩
    (a, true, { db with applicants := db.applicants ++ [a], next_id := db.next_id + 1 })

theorem resolveOrCreateSpec_of_some (db : DB) (phone lid nm : PyStr) (a : Applicant)
    (h : resolveApplicant db phone lid = some a) :
    resolveOrCreateSpec db phone lid nm = (a, false, db) := by
  unfold resolveApplicant at h
  by_cases hp : phone ≠ []
  · rw [if_pos hp] at h
    cases hf : db.applicants.find? (fun x => x.phone == phone) with
    | some b =>
      rw [hf] at h
      simp only [Option.some_inj] at h
      subst h
      unfold resolveOrCreateSpec
      rw [dif_pos ⟨hp, by rw [hf]; rfl⟩, option_get_eq _ _ hf]
    | none =>
      rw [hf] at h
      simp only at h
      by_cases hl : lid ≠ []
      · rw [if_pos hl] at h
        unfold resolveOrCreateSpec
        rw [dif_neg (by rw [hf]; simp), dif_pos ⟨hl, by rw [h]; rfl⟩,
          option_get_eq _ _ h]
      · rw [if_neg hl] at h
        exact absurd h (by simp)
  · rw [if_neg hp] at h
    simp only at h
    by_cases hl : lid ≠ []
    · rw [if_pos hl] at h
      unfold resolveOrCreateSpec
      rw [dif_neg (by simp [hp]), dif_pos ⟨hl, by rw [h]; rfl⟩,
        option_get_eq _ _ h]
    · rw [if_neg hl] at h
      exact absurd h (by simp)

theorem resolveOrCreateSpec_of_none (db : DB) (phone lid nm : PyStr)
    (h : resolveApplicant db phone lid = none) :
    resolveOrCreateSpec db phone lid nm =
      (⟨db.next_id, nm, phone, lid⟩, true,
        { db with applicants := db.applicants ++ [⟨db.next_id, nm, phone, lid⟩],
                  next_id := db.next_id + 1 }) := by
  unfold resolveApplicant at h
  by_cases hp : phone ≠ []
  · rw [if_pos hp] at h
    cases hf : db.applicants.find? (fun x => x.phone == phone) with
    | some b => rw [hf] at h; exact absurd h (by simp)
    | none =>
      rw [hf] at h
      simp only at h
      by_cases hl : lid ≠ []
      · rw [if_pos hl] at h
        unfold resolveOrCreateSpec
        rw [dif_neg (by rw [hf]; simp), dif_neg (by rw [h]; simp)]
      · unfold resolveOrCreateSpec
        rw [dif_neg (by rw [hf]; simp), dif_neg (by simp [hl])]
  · rw [if_neg hp] at h
    simp only at h
    by_cases hl : lid ≠ []
    · rw [if_pos hl] at h
      unfold resolveOrCreateSpec
      rw [dif_neg (by simp [hp]), dif_neg (by rw [h]; simp)]
    · unfold resolveOrCreateSpec
      rw [dif_neg (by simp [hp]), dif_neg (by simp [hl])]

/-- C3. For every row the loop processes without error, applicant resolution
follows the specification's lookup order (phone first, then labor id, else
create with the supplied cleaned fields): the resulting applicants table is
the one `resolveOrCreateSpec` prescribes, the appended application record
references the resolved applicant, and when an applicant was found no new
applicant row appears. -/
theorem upload_lookup_order (fname : PyStr) (s : Session) (r : Row) (t : Session)
    (h : processRow fname s r = .ok t) :
    (t.committed.applicants =
      (resolveOrCreateSpec s.committed (clean_phone r.raw_phone)
        (clean_text r.raw_labor_id) (clean_text r.raw_name)).2.2.applicants) ∧
    ((totalApps t).getLast? = some
      ⟨(resolveOrCreateSpec s.committed (clean_phone r.raw_phone)
          (clean_text r.raw_labor_id) (clean_text r.raw_name)).1.id,
        pyLower (clean_text r.raw_position), r.app_date, fname⟩) ∧
    ((resolveOrCreateSpec s.committed (clean_phone r.raw_phone)
        (clean_text r.raw_labor_id) (clean_text r.raw_name)).2.1 = false →
      t.committed.applicants = s.committed.applicants) ∧
    ((resolveOrCreateSpec s.committed (clean_phone r.raw_phone)
        (clean_text r.raw_labor_id) (clean_text r.raw_name)).2.1 = true →
      (resolveOrCreateSpec s.committed (clean_phone r.raw_phone)
        (clean_text r.raw_labor_id) (clean_text r.raw_name)).1 =
        ⟨s.committed.next_id, clean_text r.raw_name, clean_phone r.raw_phone,
          clean_text r.raw_labor_id⟩) := by
  cases hres : resolveApplicant s.committed (clean_phone r.raw_phone)
      (clean_text r.raw_labor_id) with
  | some a =>
    rw [processRow_found fname s r a hres] at h
    injection h with h
    subst h
    rw [resolveOrCreateSpec_of_some s.committed _ _ (clean_text r.raw_name) a hres]
    refine ⟨rfl, ?_, fun _ => rfl, fun hc => by simp at hc⟩
    show (s.committed.applications ++ (s.pending ++ [_])).getLast? = _
    rw [← List.append_assoc, getLast?_append_singleton]
  | none =>
    by_cases hcl : s.committed.applicants.any
        (fun a => a.phone == clean_phone r.raw_phone) = true
    · rw [processRow_conflict fname s r hres hcl] at h
      exact absurd h (by simp)
    · rw [processRow_create fname s r hres (by simpa using hcl)] at h
      injection h with h
      subst h
      rw [resolveOrCreateSpec_of_none s.committed _ _ (clean_text r.raw_name) hres]
      refine ⟨rfl, ?_, fun hc => by simp at hc, fun _ => rfl⟩
      show ((s.committed.applications ++ s.pending) ++ [_]).getLast? = _
      rw [getLast?_append_singleton]

/-- The state invariant of claim C2: no two applicant records share the same
non-empty phone value. -/
def PhoneUnique (db : DB) : Prop :=
  db.applicants.Pairwise (fun a b => a.phone ≠ [] → a.phone ≠ b.phone)

theorem listPrefixTrans {α : Type} {a b c : List α} (h1 : a <+: b) (h2 : b <+: c) :
    a <+: c := by
  obtain ⟨t1, rfl⟩ := h1
  obtain ⟨t2, rfl⟩ := h2
  exact ⟨t1 ++ t2, by simp⟩

theorem listPrefixRefl {α : Type} (l : List α) : l <+: l := ⟨[], by simp⟩

theorem listPrefixAppend {α : Type} (l t : List α) : l <+: l ++ t := ⟨t, rfl⟩

theorem processRow_phoneUnique (fname : PyStr) (s : Session) (r : Row) (s' : Session)
    (h : processRow fname s r = .ok s') (hu : PhoneUnique s.committed) :
    PhoneUnique s'.committed := by
  cases hres : resolveApplicant s.committed (clean_phone r.raw_phone)
      (clean_text r.raw_labor_id) with
  | some a =>
    rw [processRow_found fname s r a hres] at h
    injection h with h
    subst h
    exact hu
  | none =>
    by_cases hcl : s.committed.applicants.any
        (fun a => a.phone == clean_phone r.raw_phone) = true
    · rw [processRow_conflict fname s r hres hcl] at h
      exact absurd h (by simp)
    · have hcl' : s.committed.applicants.any
          (fun a => a.phone == clean_phone r.raw_phone) = false := by
        simpa using hcl
      rw [processRow_create fname s r hres hcl'] at h
      injection h with h
      subst h
      unfold PhoneUnique
      rw [List.pairwise_append]
      refine ⟨hu, List.pairwise_singleton _ _, ?_⟩
      intro x hx y hy
      simp only [List.mem_singleton] at hy
      subst hy
      intro _ heq
      have hxfalse : (x.phone == clean_phone r.raw_phone) = false := by
        have := List.any_eq_false.mp hcl' x hx
        simpa using this
      rw [heq] at hxfalse
      simp at hxfalse

theorem runRows_phoneUnique (fname : PyStr) :
    ∀ (rows : List Row) (s : Session), PhoneUnique s.committed →
      PhoneUnique ((runRows fname s rows).2).committed := by
  intro rows
  induction rows with
  | nil => intro s hu; exact hu
  | cons r rs ih =>
    intro s hu
    cases hp : processRow fname s r with
    | ok s' =>
      have := ih s' (processRow_phoneUnique fname s r s' hp hu)
      simpa only [runRows, hp] using this
    | error e =>
      simpa only [runRows, hp] using hu

/-- C2. Processing any sequence of upload rows from any state in which no two
applicants share the same non-empty phone leaves the persisted store in a
state that still satisfies that invariant — whether the batch succeeds or is
rolled back. -/
theorem upload_phone_unique (fname : PyStr) (db : DB) (rows : List Row)
    (h : PhoneUnique db) : PhoneUnique (upload_excel fname db rows).2 := by
  have hrun := runRows_phoneUnique fname rows
    { committed := db, pending := [], stats := ⟨0, 0, 0⟩ } h
  unfold upload_excel
  cases hr : runRows fname { committed := db, pending := [], stats := ⟨0, 0, 0⟩ } rows with
  | mk res s =>
    rw [hr] at hrun
    cases res with
    | none => exact hrun
    | some e => exact hrun

/-- C2 witness: a concrete batch processed from a concrete invariant-satisfying
state. -/
theorem upload_phone_unique_witness :
    PhoneUnique (upload_excel "a.xlsx".toList ⟨[], [], 1⟩
      [⟨some "Clerk".toList, some "0911223344".toList, none, some "Abebe".toList, 3⟩]).2 :=
  upload_phone_unique "a.xlsx".toList ⟨[], [], 1⟩
    [⟨some "Clerk".toList, some "0911223344".toList, none, some "Abebe".toList, 3⟩]
    (by simp [PhoneUnique])

theorem processRow_extends (fname : PyStr) (s : Session) (r : Row) (s' : Session)
    (h : processRow fname s r = .ok s') :
    s.committed.applicants <+: s'.committed.applicants ∧
    s.committed.applications <+: s'.committed.applications := by
  cases hres : resolveApplicant s.committed (clean_phone r.raw_phone)
      (clean_text r.raw_labor_id) with
  | some a =>
    rw [processRow_found fname s r a hres] at h
    injection h with h
    subst h
    exact ⟨listPrefixRefl _, listPrefixRefl _⟩
  | none =>
    by_cases hcl : s.committed.applicants.any
        (fun a => a.phone == clean_phone r.raw_phone) = true
    · rw [processRow_conflict fname s r hres hcl] at h
      exact absurd h (by simp)
    · rw [processRow_create fname s r hres (by simpa using hcl)] at h
      injection h with h
      subst h
      exact ⟨listPrefixAppend _ _, listPrefixAppend _ _⟩

theorem runRows_extends (fname : PyStr) :
    ∀ (rows : List Row) (s : Session),
      s.committed.applicants <+: ((runRows fname s rows).2).committed.applicants ∧
      s.committed.applications <+: ((runRows fname s rows).2).committed.applications := by
  intro rows
  induction rows with
  | nil => intro s; exact ⟨listPrefixRefl _, listPrefixRefl _⟩
  | cons r rs ih =>
    intro s
    cases hp : processRow fname s r with
    | ok s' =>
      have hstep := processRow_extends fname s r s' hp
      have hrest := ih s'
      refine ⟨?_, ?_⟩ <;> simp only [runRows, hp]
      · exact listPrefixTrans hstep.1 hrest.1
      · exact listPrefixTrans hstep.2 hrest.2
    | error e =>
      refine ⟨?_, ?_⟩ <;> simp only [runRows, hp]
      · exact listPrefixRefl _
      · exact listPrefixRefl _

/-- C1 (amended). A failure during the row loop rolls back only the
uncommitted pending records: the pre-batch applicants and applications always
survive as a prefix of the final tables, but work already committed by the
per-row applicant-creation commits (src/main.py line 147) also remains, so
the store need not end in exactly the pre-batch state. -/
theorem upload_failure_rollback (fname : PyStr) (db : DB) (rows : List Row)
    (e : Nat × PyStr) (final : DB)
    (h : upload_excel fname db rows = (.error e, final)) :
    db.applicants <+: final.applicants ∧ db.applications <+: final.applications := by
  have hext := runRows_extends fname rows { committed := db, pending := [], stats := ⟨0, 0, 0⟩ }
  unfold upload_excel at h
  cases hr : runRows fname { committed := db, pending := [], stats := ⟨0, 0, 0⟩ } rows with
  | mk res s =>
    rw [hr] at h hext
    cases res with
    | none => simp at h
    | some msg =>
      simp only at h
      injection h with h1 h2
      subst h2
      exact hext

theorem find?_append_some {α : Type} (q : α → Bool) (l l' : List α) (a : α)
    (h : l.find? q = some a) : (l ++ l').find? q = some a := by
  rw [List.find?_append, h]
  rfl

theorem find?_append_none {α : Type} (q : α → Bool) (l l' : List α)
    (h : l.find? q = none) : (l ++ l').find? q = l'.find? q := by
  rw [List.find?_append, h]
  rfl

theorem processRow_totalApps (fname : PyStr) (s : Session) (r : Row) (s' : Session)
    (h : processRow fname s r = .ok s') :
    ∃ app : Application, totalApps s' = totalApps s ++ [app] := by
  cases hres : resolveApplicant s.committed (clean_phone r.raw_phone)
      (clean_text r.raw_labor_id) with
  | some a =>
    rw [processRow_found fname s r a hres] at h
    injection h with h
    subst h
    exact ⟨⟨a.id, pyLower (clean_text r.raw_position), r.app_date, fname⟩,
      by unfold totalApps; simp⟩
  | none =>
    by_cases hcl : s.committed.applicants.any
        (fun a => a.phone == clean_phone r.raw_phone) = true
    · rw [processRow_conflict fname s r hres hcl] at h
      exact absurd h (by simp)
    · rw [processRow_create fname s r hres (by simpa using hcl)] at h
      injection h with h
      subst h
      exact ⟨_, rfl⟩

theorem runRows_totalApps_prefix (fname : PyStr) :
    ∀ (rows : List Row) (s : Session),
      totalApps s <+: totalApps ((runRows fname s rows).2) := by
  intro rows
  induction rows with
  | nil => intro s; exact listPrefixRefl _
  | cons r rs ih =>
    intro s
    cases hp : processRow fname s r with
    | ok s' =>
      obtain ⟨app, happ⟩ := processRow_totalApps fname s r s' hp
      simp only [runRows, hp]
      exact listPrefixTrans (by rw [happ]; exact listPrefixAppend _ _) (ih s')
    | error e =>
      simp only [runRows, hp]
      exact listPrefixRefl _

theorem runRows_getElem? (fname : PyStr) (rs : List Row) (s₁ s' : Session)
    (hrun : runRows fname s₁ rs = (none, s')) (i : Nat)
    (hi : i < (totalApps s₁).length) :
    (totalApps s')[i]? = (totalApps s₁)[i]? := by
  have hpref := runRows_totalApps_prefix fname rs s₁
  rw [hrun] at hpref
  obtain ⟨t, ht⟩ := hpref
  rw [← ht, List.getElem?_append_left hi]

theorem index_fact_cons (p : PyStr) (a₀ : Applicant) (r : Row) (rs : List Row)
    (T T₁ T' : List Application) (hT : T₁.length = T.length + 1)
    (hhead : clean_phone r.raw_phone = p →
      ∀ app, T'[T.length]? = some app → app.applicant_id = a₀.id)
    (htail : ∀ i r' app, rs[i]? = some r' → clean_phone r'.raw_phone = p →
      T'[T₁.length + i]? = some app → app.applicant_id = a₀.id) :
    ∀ i r' app, (r :: rs)[i]? = some r' → clean_phone r'.raw_phone = p →
      T'[T.length + i]? = some app → app.applicant_id = a₀.id := by
  intro i r' app hidx hpr happ
  cases i with
  | zero =>
    rw [List.getElem?_cons_zero] at hidx
    injection hidx with hidx
    subst hidx
    exact hhead hpr app (by simpa using happ)
  | succ i =>
    rw [List.getElem?_cons_succ] at hidx
    have heq : T.length + (i + 1) = T₁.length + i := by omega
    rw [heq] at happ
    exact htail i r' app hidx hpr happ

theorem runRows_found_phone (fname p : PyStr) (hp : p ≠ []) (a₀ : Applicant) :
    ∀ (rows : List Row) (s s' : Session),
      runRows fname s rows = (none, s') →
      s.committed.applicants.find? (fun a => a.phone == p) = some a₀ →
      (s'.committed.applicants.find? (fun a => a.phone == p) = some a₀ ∧
       s'.committed.applicants.filter (fun a => a.phone == p) =
         s.committed.applicants.filter (fun a => a.phone == p) ∧
       (∀ i r app, rows[i]? = some r → clean_phone r.raw_phone = p →
         (totalApps s')[(totalApps s).length + i]? = some app →
         app.applicant_id = a₀.id)) := by
  intro rows
  induction rows with
  | nil =>
    intro s s' hrun hfind
    simp only [runRows] at hrun
    injection hrun with h1 h2
    subst h2
    exact ⟨hfind, rfl, by intro i r app hidx _ _; simp at hidx⟩
  | cons r rs ih =>
    intro s s' hrun hfind
    cases hp1 : processRow fname s r with
    | error e => rw [runRows, hp1] at hrun; simp at hrun
    | ok s₁ =>
      rw [runRows, hp1] at hrun
      by_cases hpr : clean_phone r.raw_phone = p
      · have hres : resolveApplicant s.committed (clean_phone r.raw_phone)
            (clean_text r.raw_labor_id) = some a₀ := by
          unfold resolveApplicant
          rw [hpr, if_pos hp, hfind]
        rw [processRow_found fname s r a₀ hres] at hp1
        injection hp1 with hp1
        subst hp1
        obtain ⟨hf', hfil', hidx'⟩ := ih _ s' hrun hfind
        refine ⟨hf', hfil', ?_⟩
        refine index_fact_cons p a₀ r rs (totalApps s) (totalApps _) (totalApps s')
          (by unfold totalApps; simp; try omega) ?_ hidx'
        intro _ app happ
        have hlt : (totalApps s).length <
            (totalApps { s with
              pending := s.pending ++
                [⟨a₀.id, pyLower (clean_text r.raw_position), r.app_date, fname⟩],
              stats := { s.stats with
                existing_applicants := s.stats.existing_applicants + 1,
                applications_added := s.stats.applications_added + 1 } }).length := by
          unfold totalApps; simp
        rw [runRows_getElem? fname rs _ s' hrun _ hlt] at happ
        have hTA : totalApps { s with
              pending := s.pending ++
                [⟨a₀.id, pyLower (clean_text r.raw_position), r.app_date, fname⟩],
              stats := { s.stats with
                existing_applicants := s.stats.existing_applicants + 1,
                applications_added := s.stats.applications_added + 1 } } =
            totalApps s ++ [⟨a₀.id, pyLower (clean_text r.raw_position), r.app_date, fname⟩] := by
          unfold totalApps; simp
        rw [hTA, List.getElem?_concat_length] at happ
        injection happ with happ
        rw [← happ]
      · cases hres : resolveApplicant s.committed (clean_phone r.raw_phone)
            (clean_text r.raw_labor_id) with
        | some a =>
          rw [processRow_found fname s r a hres] at hp1
          injection hp1 with hp1
          subst hp1
          obtain ⟨hf', hfil', hidx'⟩ := ih _ s' hrun hfind
          refine ⟨hf', hfil', ?_⟩
          refine index_fact_cons p a₀ r rs (totalApps s) (totalApps _) (totalApps s')
            (by unfold totalApps; simp; try omega) ?_ hidx'
          intro hpr' _ _
          exact absurd hpr' hpr
        | none =>
          by_cases hcl : s.committed.applicants.any
              (fun a => a.phone == clean_phone r.raw_phone) = true
          · rw [processRow_conflict fname s r hres hcl] at hp1
            exact absurd hp1 (by simp)
          · rw [processRow_create fname s r hres (by simpa using hcl)] at hp1
            injection hp1 with hp1
            subst hp1
            have hbeq : ((⟨s.committed.next_id, clean_text r.raw_name,
                clean_phone r.raw_phone, clean_text r.raw_labor_id⟩ : Applicant).phone
                == p) = false := by
              rw [beq_eq_false_iff_ne]
              exact hpr
            have hfind1 := find?_append_some (fun a => a.phone == p)
              s.committed.applicants
              [(⟨s.committed.next_id, clean_text r.raw_name, clean_phone r.raw_phone,
                clean_text r.raw_labor_id⟩ : Applicant)] a₀ hfind
            obtain ⟨hf', hfil', hidx'⟩ := ih _ s' hrun hfind1
            refine ⟨hf', ?_, ?_⟩
            · rw [hfil', List.filter_append]
              simp [List.filter_cons, hbeq]
            · refine index_fact_cons p a₀ r rs (totalApps s) (totalApps _) (totalApps s')
                (by unfold totalApps; simp; try omega) ?_ hidx'
              intro hpr' _ _
              exact absurd hpr' hpr

theorem runRows_head_index (fname : PyStr) (rs : List Row) (s₁ s' : Session)
    (T : List Application) (app₀ : Application)
    (hrun : runRows fname s₁ rs = (none, s'))
    (hT : totalApps s₁ = T ++ [app₀]) :
    (totalApps s')[T.length]? = some app₀ := by
  have hlt : T.length < (totalApps s₁).length := by rw [hT]; simp
  rw [runRows_getElem? fname rs s₁ s' hrun _ hlt, hT, List.getElem?_concat_length]

theorem runRows_fresh_phone (fname p : PyStr) (hp : p ≠ []) :
    ∀ (rows : List Row) (s s' : Session),
      runRows fname s rows = (none, s') →
      s.committed.applicants.filter (fun a => a.phone == p) = [] →
      (∀ r ∈ rows, clean_phone r.raw_phone = p → clean_text r.raw_labor_id = []) →
      ((∀ r ∈ rows, clean_phone r.raw_phone ≠ p) ∧
        s'.committed.applicants.filter (fun a => a.phone == p) = []) ∨
      (∃ a₀ : Applicant, a₀.phone = p ∧
        s'.committed.applicants.filter (fun a => a.phone == p) = [a₀] ∧
        (∀ i r app, rows[i]? = some r → clean_phone r.raw_phone = p →
          (totalApps s')[(totalApps s).length + i]? = some app →
          app.applicant_id = a₀.id)) := by
  intro rows
  induction rows with
  | nil =>
    intro s s' hrun hfil hlab
    simp only [runRows] at hrun
    injection hrun with h1 h2
    subst h2
    exact Or.inl ⟨by simp, hfil⟩
  | cons r rs ih =>
    intro s s' hrun hfil hlab
    cases hp1 : processRow fname s r with
    | error e => rw [runRows, hp1] at hrun; simp at hrun
    | ok s₁ =>
      rw [runRows, hp1] at hrun
      have hfind : s.committed.applicants.find? (fun a => a.phone == p) = none := by
        rw [List.find?_eq_none]
        intro x hx
        exact (List.filter_eq_nil_iff.mp hfil) x hx
      by_cases hpr : clean_phone r.raw_phone = p
      · have hlid : clean_text r.raw_labor_id = [] := hlab r (by simp) hpr
        have hres : resolveApplicant s.committed (clean_phone r.raw_phone)
            (clean_text r.raw_labor_id) = none := by
          unfold resolveApplicant
          rw [hpr, hlid, if_pos hp, hfind]
          simp
        have hany : s.committed.applicants.any
            (fun a => a.phone == clean_phone r.raw_phone) = false := by
          rw [hpr, List.any_eq_false]
          intro x hx
          exact (List.filter_eq_nil_iff.mp hfil) x hx
        rw [processRow_create fname s r hres hany] at hp1
        injection hp1 with hp1
        subst hp1
        have haNbeq : ((⟨s.committed.next_id, clean_text r.raw_name,
            clean_phone r.raw_phone, clean_text r.raw_labor_id⟩ : Applicant).phone == p)
            = true := by
          simp [hpr]
        have hfind1 : (s.committed.applicants ++
            [(⟨s.committed.next_id, clean_text r.raw_name, clean_phone r.raw_phone,
              clean_text r.raw_labor_id⟩ : Applicant)]).find? (fun a => a.phone == p)
            = some ⟨s.committed.next_id, clean_text r.raw_name, clean_phone r.raw_phone,
              clean_text r.raw_labor_id⟩ := by
          rw [find?_append_none _ _ _ hfind]
          exact List.find?_cons_of_pos _ haNbeq
        obtain ⟨hf', hfil', hidx'⟩ := runRows_found_phone fname p hp _ rs _ s' hrun hfind1
        refine Or.inr ⟨⟨s.committed.next_id, clean_text r.raw_name,
          clean_phone r.raw_phone, clean_text r.raw_labor_id⟩, hpr, ?_, ?_⟩
        · rw [hfil', List.filter_append, hfil]
          simp [List.filter_cons, haNbeq]
        · refine index_fact_cons p _ r rs (totalApps s) (totalApps _) (totalApps s')
            (by unfold totalApps; simp; try omega) ?_ hidx'
          intro _ app happ
          have hhead := runRows_head_index fname rs _ s' (totalApps s)
            ⟨s.committed.next_id, pyLower (clean_text r.raw_position), r.app_date, fname⟩
            hrun rfl
          rw [hhead] at happ
          injection happ with happ
          rw [← happ]
      · cases hres : resolveApplicant s.committed (clean_phone r.raw_phone)
            (clean_text r.raw_labor_id) with
        | some a =>
          rw [processRow_found fname s r a hres] at hp1
          injection hp1 with hp1
          subst hp1
          have hrec := ih _ s' hrun hfil
            (fun r' hr' hpr' => hlab r' (List.mem_cons_of_mem r hr') hpr')
          rcases hrec with ⟨hnone, hfil'⟩ | ⟨a₀, ha₀p, hfil', hidx'⟩
          · refine Or.inl ⟨?_, hfil'⟩
            intro r' hr'
            rcases List.mem_cons.mp hr' with rfl | hr'
            · exact hpr
            · exact hnone r' hr'
          · refine Or.inr ⟨a₀, ha₀p, hfil', ?_⟩
            refine index_fact_cons p a₀ r rs (totalApps s) (totalApps _) (totalApps s')
              (by unfold totalApps; simp; try omega) ?_ hidx'
            intro hpr' _ _
            exact absurd hpr' hpr
        | none =>
          by_cases hcl : s.committed.applicants.any
              (fun a => a.phone == clean_phone r.raw_phone) = true
          · rw [processRow_conflict fname s r hres hcl] at hp1
            exact absurd hp1 (by simp)
          · rw [processRow_create fname s r hres (by simpa using hcl)] at hp1
            injection hp1 with hp1
            subst hp1
            have hbeq : ((⟨s.committed.next_id, clean_text r.raw_name,
                clean_phone r.raw_phone, clean_text r.raw_labor_id⟩ : Applicant).phone
                == p) = false := by
              rw [beq_eq_false_iff_ne]
              exact hpr
            have hfil1 : (s.committed.applicants ++
                [(⟨s.committed.next_id, clean_text r.raw_name, clean_phone r.raw_phone,
                  clean_text r.raw_labor_id⟩ : Applicant)]).filter
                  (fun a => a.phone == p) = [] := by
              rw [List.filter_append, hfil]
              simp [List.filter_cons, hbeq]
            have hrec := ih _ s' hrun hfil1
              (fun r' hr' hpr' => hlab r' (List.mem_cons_of_mem r hr') hpr')
            rcases hrec with ⟨hnone, hfil'⟩ | ⟨a₀, ha₀p, hfil', hidx'⟩
            · refine Or.inl ⟨?_, hfil'⟩
              intro r' hr'
              rcases List.mem_cons.mp hr' with rfl | hr'
              · exact hpr
              · exact hnone r' hr'
            · refine Or.inr ⟨a₀, ha₀p, hfil', ?_⟩
              refine index_fact_cons p a₀ r rs (totalApps s) (totalApps _) (totalApps s')
                (by unfold totalApps; simp; try omega) ?_ hidx'
              intro hpr' _ _
              exact absurd hpr' hpr

theorem runRows_ok_length (fname : PyStr) :
    ∀ (rows : List Row) (s s' : Session),
      runRows fname s rows = (none, s') →
      (totalApps s').length = (totalApps s).length + rows.length := by
  intro rows
  induction rows with
  | nil =>
    intro s s' h
    simp only [runRows] at h
    injection h with _ h2
    subst h2
    simp
  | cons r rs ih =>
    intro s s' h
    cases hp1 : processRow fname s r with
    | error e => rw [runRows, hp1] at h; simp at h
    | ok s₁ =>
      rw [runRows, hp1] at h
      obtain ⟨app, happ⟩ := processRow_totalApps fname s r s₁ hp1
      rw [ih s₁ s' h, happ]
      simp
      omega

/-- C4 (amended). For a successful upload in which some rows share the same
non-empty cleaned phone `p`, no applicant with phone `p` existed before the
batch, and those rows' cleaned labor ids are empty (so the labor-id fallback
cannot divert them to a different applicant), exactly one applicant with
phone `p` exists afterwards and every one of those rows' appended
applications references it: the first such row's creation is committed
immediately, so later rows find it by phone. -/
theorem upload_same_phone_one_applicant (fname : PyStr) (db : DB) (rows : List Row)
    (st : Stats) (final : DB) (p : PyStr)
    (hok : upload_excel fname db rows = (.ok st, final))
    (hp : p ≠ [])
    (h0 : db.applicants.filter (fun a => a.phone == p) = [])
    (hlab : ∀ r ∈ rows, clean_phone r.raw_phone = p → clean_text r.raw_labor_id = [])
    (hex : ∃ r ∈ rows, clean_phone r.raw_phone = p) :
    ∃ a₀ : Applicant, a₀.phone = p ∧
      final.applicants.filter (fun a => a.phone == p) = [a₀] ∧
      final.applications.length = db.applications.length + rows.length ∧
      (∀ i r app, rows[i]? = some r → clean_phone r.raw_phone = p →
        final.applications[db.applications.length + i]? = some app →
        app.applicant_id = a₀.id) := by
  unfold upload_excel at hok
  cases hr : runRows fname { committed := db, pending := [], stats := ⟨0, 0, 0⟩ } rows with
  | mk res s =>
    rw [hr] at hok
    cases res with
    | some e => simp at hok
    | none =>
      simp only at hok
      injection hok with h1 h2
      subst h2
      have hfresh := runRows_fresh_phone fname p hp rows _ s hr h0 hlab
      rcases hfresh with ⟨hnone, _⟩ | ⟨a₀, ha₀p, hfil', hidx'⟩
      · obtain ⟨r, hr', hpr⟩ := hex
        exact absurd hpr (hnone r hr')
      · refine ⟨a₀, ha₀p, hfil', ?_, ?_⟩
        · have hlen := runRows_ok_length fname rows _ s hr
          show (totalApps s).length = db.applications.length + rows.length
          rw [hlen]
          simp [totalApps]
        · intro i r app hidx hpr happ
          apply hidx' i r app hidx hpr
          simpa [totalApps] using happ

def c1_file : PyStr := "batch.xlsx".toList

def c1_db : DB := ⟨[], [], 1⟩

def c1_rows : List Row :=
  [⟨some "Driver".toList, some "0911223344".toList, none, some "Alice".toList, 5⟩,
   ⟨none, none, none, none, 6⟩,
   ⟨none, none, none, none, 7⟩]

/-- C1 counterexample: a three-row batch over an empty store in which row 3
raises an integrity error.  The upload request fails, yet the final persisted
state holds 2 applicants and 1 application — not the (empty) pre-batch state,
because rows 1 and 2 committed their applicant creations (and row 2's commit
flushed row 1's pending application) before the failure. -/
theorem upload_not_atomic_counterexample :
    (upload_excel c1_file c1_db c1_rows).1 =
      .error (500, "Database error: ".toList ++ integrityError) ∧
    (upload_excel c1_file c1_db c1_rows).2.applicants.length = 2 ∧
    (upload_excel c1_file c1_db c1_rows).2.applications.length = 1 ∧
    c1_db.applicants.length = 0 ∧ c1_db.applications.length = 0 :=
  ⟨rfl, rfl, rfl, rfl, rfl⟩

/-- C1 witness: the amended rollback theorem applied to the failing batch. -/
theorem upload_failure_rollback_witness :
    c1_db.applicants <+: (upload_excel c1_file c1_db c1_rows).2.applicants ∧
    c1_db.applications <+: (upload_excel c1_file c1_db c1_rows).2.applications :=
  upload_failure_rollback c1_file c1_db c1_rows _ _ rfl

def c4_file : PyStr := "c.xlsx".toList

def c4_db : DB := ⟨[⟨1, "Bekele".toList, "x".toList, "L7".toList⟩], [], 2⟩

def c4_rows : List Row :=
  [⟨some "Guard".toList, some "0911223344".toList, some "L7".toList, some "Sara".toList, 4⟩,
   ⟨some "Guard".toList, some "0911223344".toList, none, some "Sara".toList, 9⟩]

/-- C4 counterexample: two rows with the same non-empty cleaned phone
"+251911223344" that matches no pre-existing applicant (the only stored
applicant's phone is "x").  Row 1's labor id "L7" matches that applicant, so
the labor-id fallback resolves row 1 to applicant 1, while row 2 creates a
new applicant 2 for the phone: the two appended applications reference
different applicants, contradicting the claim's conclusion that both
reference a single applicant. -/
theorem upload_same_phone_counterexample :
    clean_phone (some "0911223344".toList) = "+251911223344".toList ∧
    "+251911223344".toList ≠ ([] : PyStr) ∧
    c4_db.applicants.filter (fun a => a.phone == "+251911223344".toList) = [] ∧
    (upload_excel c4_file c4_db c4_rows).1 = .ok ⟨1, 1, 2⟩ ∧
    (upload_excel c4_file c4_db c4_rows).2.applications.map
      (fun app => app.applicant_id) = [1, 2] :=
  ⟨rfl, by decide, rfl, rfl, rfl⟩

def c4w_file : PyStr := "d.xlsx".toList

def c4w_db : DB := ⟨[], [], 1⟩

def c4w_rows : List Row :=
  [⟨some "Guard".toList, some "0911223344".toList, none, some "Sara".toList, 4⟩,
   ⟨some "guard".toList, some "0911-22-33-44".toList, none, some "Sara A.".toList, 9⟩]

/-- C4 witness: two rows whose differently formatted phones clean to the same
fresh value and whose labor ids are empty. -/
theorem upload_same_phone_one_applicant_witness :
    ∃ a₀ : Applicant, a₀.phone = "+251911223344".toList ∧
      (upload_excel c4w_file c4w_db c4w_rows).2.applicants.filter
        (fun a => a.phone == "+251911223344".toList) = [a₀] ∧
      (upload_excel c4w_file c4w_db c4w_rows).2.applications.length =
        c4w_db.applications.length + c4w_rows.length ∧
      (∀ i r app, c4w_rows[i]? = some r →
        clean_phone r.raw_phone = "+251911223344".toList →
        (upload_excel c4w_file c4w_db c4w_rows).2.applications[
          c4w_db.applications.length + i]? = some app →
        app.applicant_id = a₀.id) :=
  upload_same_phone_one_applicant c4w_file c4w_db c4w_rows ⟨1, 1, 2⟩
    (upload_excel c4w_file c4w_db c4w_rows).2 "+251911223344".toList
    rfl (by decide) rfl (by decide) (by decide)

/-- C10. When the store already holds an applicant whose phone is the empty
string, a row whose cleaned phone is empty and whose labor-id lookup cannot
resolve it (empty labor id, or no matching applicant) attempts to insert a
second empty-phone applicant; the unique index on the phone column rejects
the insert, the handler rolls back and fails with HTTP 500, and no applicant
or application is persisted. -/
theorem upload_empty_phone_conflict (fname : PyStr) (db : DB) (r : Row)
    (hdup : ∃ a ∈ db.applicants, a.phone = [])
    (hphone : clean_phone r.raw_phone = [])
    (hlab : clean_text r.raw_labor_id = [] ∨
      db.applicants.find? (fun a => a.labor_id == clean_text r.raw_labor_id) = none) :
    upload_excel fname db [r] =
      (.error (500, "Database error: ".toList ++ integrityError), db) := by
  have hres : resolveApplicant db (clean_phone r.raw_phone)
      (clean_text r.raw_labor_id) = none := by
    rw [hphone]
    unfold resolveApplicant
    rw [if_neg (fun hc => hc rfl)]
    show (if clean_text r.raw_labor_id ≠ [] then
      db.applicants.find? (fun a => a.labor_id == clean_text r.raw_labor_id)
      else none) = none
    by_cases hl : clean_text r.raw_labor_id ≠ []
    · rw [if_pos hl]
      rcases hlab with h | h
      · exact absurd h hl
      · exact h
    · rw [if_neg hl]
  have hany : db.applicants.any (fun a => a.phone == clean_phone r.raw_phone) = true := by
    rw [hphone]
    obtain ⟨a, ha, hap⟩ := hdup
    exact List.any_eq_true.mpr ⟨a, ha, by simp [hap]⟩
  have hrow := processRow_conflict fname
    { committed := db, pending := [], stats := ⟨0, 0, 0⟩ } r hres hany
  unfold upload_excel
  rw [runRows, hrow]

def c10_file : PyStr := "e.xlsx".toList

def c10_db : DB := ⟨[⟨1, "X".toList, [], []⟩], [], 2⟩

def c10_row : Row := ⟨none, none, none, none, 0⟩

/-- C10 witness: a row with no usable phone or labor id uploaded into a store
that already has an empty-phone applicant. -/
theorem upload_empty_phone_conflict_witness :
    upload_excel c10_file c10_db [c10_row] =
      (.error (500, "Database error: ".toList ++ integrityError), c10_db) :=
  upload_empty_phone_conflict c10_file c10_db c10_row
    ⟨⟨1, "X".toList, [], []⟩, by simp [c10_db], rfl⟩ rfl (Or.inl rfl)

def c3_file : PyStr := "f.xlsx".toList

def c3_s : Session :=
  ⟨⟨[⟨1, "Hana".toList, "+251911223344".toList, "L1".toList⟩], [], 2⟩, [], ⟨0, 0, 0⟩⟩

def c3_row : Row := ⟨some "Clerk".toList, some "0911223344".toList, none, some "Hana".toList, 8⟩

def c3_t : Session :=
  ⟨⟨[⟨1, "Hana".toList, "+251911223344".toList, "L1".toList⟩], [], 2⟩,
   [⟨1, "clerk".toList, 8, c3_file⟩], ⟨0, 1, 1⟩⟩

/-- C3 witness: a row whose cleaned phone matches the stored applicant is
resolved by the phone lookup and creates nothing. -/
theorem upload_lookup_order_witness :
    (c3_t.committed.applicants =
      (resolveOrCreateSpec c3_s.committed (clean_phone c3_row.raw_phone)
        (clean_text c3_row.raw_labor_id) (clean_text c3_row.raw_name)).2.2.applicants) ∧
    ((totalApps c3_t).getLast? = some
      ⟨(resolveOrCreateSpec c3_s.committed (clean_phone c3_row.raw_phone)
          (clean_text c3_row.raw_labor_id) (clean_text c3_row.raw_name)).1.id,
        pyLower (clean_text c3_row.raw_position), c3_row.app_date, c3_file⟩) ∧
    ((resolveOrCreateSpec c3_s.committed (clean_phone c3_row.raw_phone)
        (clean_text c3_row.raw_labor_id) (clean_text c3_row.raw_name)).2.1 = false →
      c3_t.committed.applicants = c3_s.committed.applicants) ∧
    ((resolveOrCreateSpec c3_s.committed (clean_phone c3_row.raw_phone)
        (clean_text c3_row.raw_labor_id) (clean_text c3_row.raw_name)).2.1 = true →
      (resolveOrCreateSpec c3_s.committed (clean_phone c3_row.raw_phone)
        (clean_text c3_row.raw_labor_id) (clean_text c3_row.raw_name)).1 =
        ⟨c3_s.committed.next_id, clean_text c3_row.raw_name,
          clean_phone c3_row.raw_phone, clean_text c3_row.raw_labor_id⟩) :=
  upload_lookup_order c3_file c3_s c3_row c3_t rfl

/-!
The `/search` handler (src/main.py lines 176-270).  Dates entering through
the form are parsed with `datetime.strptime(s, "%Y-%m-%d")` and compared
chronologically; parsed calendar dates are encoded as `y*10000 + m*100 + d`,
which preserves chronological order, so they live in the same `Nat` order as
the stored application dates.
-/

def isLeapYear (y : Nat) : Bool :=
  (y % 4 == 0 && y % 100 != 0) || y % 400 == 0

def daysInMonth (y m : Nat) : Nat :=
  if m = 2 then (if isLeapYear y then 29 else 28)
  else if m = 4 ∨ m = 6 ∨ m = 9 ∨ m = 11 then 30
  else 31

def digitsToNat (l : PyStr) : Nat :=
  l.foldl (fun acc c => acc * 10 + (c.toNat - 48)) 0

/-- Model of `datetime.strptime(s, "%Y-%m-%d").date()`: three dash-separated
all-digit fields (`%Y` 1-4 digits, `%m`/`%d` 1-2 digits), validated as a real
calendar date; any other input raises `ValueError` (modelled as `none`). -/
def parseDate (s : PyStr) : Option Nat :=
  match s.splitOn '-' with
  | [ys, ms, ds] =>
    if ys ≠ [] && ys.all Char.isDigit && ys.length ≤ 4 &&
       ms ≠ [] && ms.all Char.isDigit && ms.length ≤ 2 &&
       ds ≠ [] && ds.all Char.isDigit && ds.length ≤ 2 then
      let y := digitsToNat ys
      let m := digitsToNat ms
      let d := digitsToNat ds
      if 1 ≤ y && y ≤ 9999 && 1 ≤ m && m ≤ 12 && 1 ≤ d && d ≤ daysInMonth y m then
        some (y * 10000 + m * 100 + d)
      else none
    else none
  | _ => none

/-- Outcome type of the `/search` handler.  `valueError` models a Python
exception that the handler does not catch (the `try` block at lines 187-270
has only a `finally`), which escapes to the framework and is answered as an
HTTP 500 server error; `http` models an `HTTPException` raised deliberately
by the handler. -/
inductive SearchError where
  | valueError (msg : PyStr)
  | http (status : Nat) (msg : PyStr)
deriving DecidableEq, Repr

/-- The handler's two response shapes (the exported spreadsheet is abstracted
as the list of records written into it). -/
inductive SearchOut where
  | jsonOut (count : Nat) (rows : List (Application × Applicant))
  | fileOut (rows : List (Application × Applicant))
deriving DecidableEq, Repr

/-- Fixed stand-in for the `ValueError` message text raised by `strptime`. -/
def strptimeMsg : PyStr := "time data does not match format %Y-%m-%d".toList

/-- The two `if start_date:`/`if end_date:` blocks (lines 196-202): an absent
or empty form value imposes no bound; a non-empty value must parse or the
uncaught `ValueError` aborts the request. -/
def parseFormDate (x : Option PyStr) : Except SearchError (Option Nat) :=
  match x with
  | none => .ok none
  | some s =>
    if s ≠ [] then
      match parseDate s with
      | some d => .ok (some d)
      | none => .error (.valueError strptimeMsg)
    else .ok none

/-- The inner join `query(Application, Applicant).join(Applicant)` on the
`applicant_id` foreign key. -/
def joinEntries (db : DB) : List (Application × Applicant) :=
  db.applications.filterMap (fun app =>
    (db.applicants.find? (fun a => a.id == app.applicant_id)).map (fun a => (app, a)))

/-- The three query filters (lines 191-202): position substring containment
and the inclusive date bounds `>= start` and `<= end`. -/
def matchesQuery (position_lower : PyStr) (sd ed : Option Nat) (app : Application) : Bool :=
  decide (position_lower <:+: app.position) &&
  (match sd with | none => true | some s => decide (s ≤ app.application_date)) &&
  (match ed with | none => true | some e => decide (app.application_date ≤ e))

/-- `order_by(Application.application_date.desc())` via insertion sort; ties
keep an unspecified relative order, as in the source. -/
def insertByDateDesc (e : Application × Applicant) :
    List (Application × Applicant) → List (Application × Applicant)
  | [] => [e]
  | x :: xs =>
    if x.1.application_date ≤ e.1.application_date then e :: x :: xs
    else x :: insertByDateDesc e xs

def sortByDateDesc : List (Application × Applicant) → List (Application × Applicant)
  | [] => []
  | e :: es => insertByDateDesc e (sortByDateDesc es)

/-- `applicant.phone or applicant.labor_id or applicant.full_name`
(line 212): Python `or` takes the first non-empty string. -/
def applicant_key (a : Applicant) : PyStr :=
  if a.phone ≠ [] then a.phone
  else if a.labor_id ≠ [] then a.labor_id
  else a.full_name

/-- The unique-only collapse loop (lines 208-216): keep the first occurrence
per applicant dedup key, scanning in the sorted order. -/
def uniqueOnlyFilter :
    List (Application × Applicant) → List PyStr → List (Application × Applicant)
  | [], _ => []
  | e :: es, seen =>
    if applicant_key e.2 ∈ seen then uniqueOnlyFilter es seen
    else e :: uniqueOnlyFilter es (applicant_key e.2 :: seen)

/-- The filtered, date-descending result list before the unique-only step. -/
def searchFiltered (db : DB) (position : PyStr) (sd ed : Option Nat) :
    List (Application × Applicant) :=
  sortByDateDesc ((joinEntries db).filter
    (fun e => matchesQuery (pyStrip (pyLower position)) sd ed e.1))

def searchResults (db : DB) (position : PyStr) (sd ed : Option Nat)
    (unique_only : Bool) : List (Application × Applicant) :=
  if unique_only then uniqueOnlyFilter (searchFiltered db position sd ed) []
  else searchFiltered db position sd ed

/-- The `/search` handler (lines 176-270).  Returns the outcome together with
the persisted database, which the handler never modifies. -/
def search_applicants (db : DB) (position : PyStr) (start_date end_date : Option PyStr)
    (unique_only : Bool) (output_format : PyStr) :
    Except SearchError SearchOut × DB :=
  match parseFormDate start_date with
  | .error e => (.error e, db)
  | .ok sd =>
    match parseFormDate end_date with
    | .error e => (.error e, db)
    | .ok ed =>
      let results := searchResults db position sd ed unique_only
      if output_format == "json".toList then
        (.ok (.jsonOut results.length results), db)
      else if results = [] then
        (.error (.http 404 "No applicants found for this position".toList), db)
      else
        (.ok (.fileOut results), db)

theorem mem_insertByDateDesc (e x : Application × Applicant)
    (l : List (Application × Applicant)) :
    x ∈ insertByDateDesc e l ↔ x ∈ e :: l := by
  induction l with
  | nil => simp [insertByDateDesc]
  | cons y ys ih =>
    rw [insertByDateDesc]
    by_cases hc : y.1.application_date ≤ e.1.application_date
    · rw [if_pos hc]
    · rw [if_neg hc]
      simp only [List.mem_cons, ih, List.mem_cons]
      tauto

theorem mem_sortByDateDesc (x : Application × Applicant)
    (l : List (Application × Applicant)) :
    x ∈ sortByDateDesc l ↔ x ∈ l := by
  induction l with
  | nil => simp [sortByDateDesc]
  | cons e es ih =>
    rw [sortByDateDesc, mem_insertByDateDesc]
    simp [ih]

/-- C9. The search date-range filter is inclusive at both ends: an
application that passes the join and position filters and whose date equals
the start bound exactly, or the end bound exactly (or lies inside the
bounds), satisfies the date condition and appears in the result set — the
filter uses `>= start` and `<= end`. -/
theorem search_date_bounds_inclusive (db : DB) (position : PyStr) (sd ed : Option Nat)
    (e : Application × Applicant)
    (hj : e ∈ joinEntries db)
    (hpos : pyStrip (pyLower position) <:+: e.1.position)
    (hstart : sd = none ∨ sd = some e.1.application_date ∨
      ∃ s, sd = some s ∧ s ≤ e.1.application_date)
    (hend : ed = none ∨ ed = some e.1.application_date ∨
      ∃ t, ed = some t ∧ e.1.application_date ≤ t) :
    e ∈ searchFiltered db position sd ed := by
  unfold searchFiltered
  rw [mem_sortByDateDesc, List.mem_filter]
  refine ⟨hj, ?_⟩
  unfold matchesQuery
  rw [Bool.and_eq_true, Bool.and_eq_true]
  refine ⟨⟨by simpa using hpos, ?_⟩, ?_⟩
  · rcases hstart with rfl | rfl | ⟨s, rfl, hs⟩
    · rfl
    · simp
    · simpa using hs
  · rcases hend with rfl | rfl | ⟨t, rfl, ht⟩
    · rfl
    · simp
    · simpa using ht

def c9_applicant : Applicant := ⟨1, "Nia".toList, "p1".toList, []⟩

def c9_app : Application := ⟨1, "driver".toList, 20240110, "s.xlsx".toList⟩

def c9_db : DB := ⟨[c9_applicant], [c9_app], 2⟩

/-- C9 witness: an application dated exactly on both bounds is returned. -/
theorem search_date_bounds_inclusive_witness :
    (c9_app, c9_applicant) ∈
      searchFiltered c9_db "driver".toList (some 20240110) (some 20240110) :=
  search_date_bounds_inclusive c9_db "driver".toList (some 20240110) (some 20240110)
    (c9_app, c9_applicant) (by decide) (by decide)
    (Or.inr (Or.inl rfl)) (Or.inr (Or.inl rfl))

theorem insertByDateDesc_sorted (e : Application × Applicant)
    (l : List (Application × Applicant))
    (h : l.Pairwise (fun a b => b.1.application_date ≤ a.1.application_date)) :
    (insertByDateDesc e l).Pairwise
      (fun a b => b.1.application_date ≤ a.1.application_date) := by
  induction l with
  | nil => simp [insertByDateDesc]
  | cons x xs ih =>
    rw [insertByDateDesc]
    by_cases hc : x.1.application_date ≤ e.1.application_date
    · rw [if_pos hc]
      refine List.Pairwise.cons ?_ h
      intro y hy
      rcases List.mem_cons.mp hy with rfl | hy
      · exact hc
      · exact le_trans (List.rel_of_pairwise_cons h hy) hc
    · rw [if_neg hc]
      have hx := List.pairwise_cons.mp h
      refine List.Pairwise.cons ?_ (ih hx.2)
      intro y hy
      rw [mem_insertByDateDesc] at hy
      rcases List.mem_cons.mp hy with rfl | hy
      · exact Nat.le_of_not_le hc
      · exact hx.1 y hy

theorem sortByDateDesc_sorted (l : List (Application × Applicant)) :
    (sortByDateDesc l).Pairwise
      (fun a b => b.1.application_date ≤ a.1.application_date) := by
  induction l with
  | nil => simp [sortByDateDesc]
  | cons e es ih => exact insertByDateDesc_sorted e _ ih

theorem uniqueOnlyFilter_key_notin (l : List (Application × Applicant)) :
    ∀ (seen : List PyStr), ∀ x ∈ uniqueOnlyFilter l seen, applicant_key x.2 ∉ seen := by
  induction l with
  | nil => intro seen x hx; simp [uniqueOnlyFilter] at hx
  | cons e es ih =>
    intro seen x hx
    rw [uniqueOnlyFilter] at hx
    by_cases hc : applicant_key e.2 ∈ seen
    · rw [if_pos hc] at hx
      exact ih seen x hx
    · rw [if_neg hc] at hx
      rcases List.mem_cons.mp hx with rfl | hx
      · exact hc
      · intro hmem
        exact ih _ x hx (List.mem_cons_of_mem _ hmem)

theorem uniqueOnlyFilter_pairwise (l : List (Application × Applicant)) :
    ∀ (seen : List PyStr),
      (uniqueOnlyFilter l seen).Pairwise
        (fun x y => applicant_key x.2 ≠ applicant_key y.2) := by
  induction l with
  | nil => intro seen; simp [uniqueOnlyFilter]
  | cons e es ih =>
    intro seen
    rw [uniqueOnlyFilter]
    by_cases hc : applicant_key e.2 ∈ seen
    · rw [if_pos hc]
      exact ih seen
    · rw [if_neg hc]
      refine List.Pairwise.cons ?_ (ih _)
      intro y hy hkey
      have := uniqueOnlyFilter_key_notin es _ y hy
      exact this (by rw [← hkey]; exact List.mem_cons_self _ _)

theorem uniqueOnlyFilter_max (l : List (Application × Applicant))
    (hsort : l.Pairwise (fun a b => b.1.application_date ≤ a.1.application_date)) :
    ∀ (seen : List PyStr), ∀ e ∈ uniqueOnlyFilter l seen, ∀ e' ∈ l,
      applicant_key e'.2 = applicant_key e.2 →
      e'.1.application_date ≤ e.1.application_date := by
  induction l with
  | nil => intro seen e he; simp [uniqueOnlyFilter] at he
  | cons x xs ih =>
    intro seen e he e' he' hkey
    have hx := List.pairwise_cons.mp hsort
    rw [uniqueOnlyFilter] at he
    by_cases hc : applicant_key x.2 ∈ seen
    · rw [if_pos hc] at he
      rcases List.mem_cons.mp he' with rfl | he'
      · have hnotin := uniqueOnlyFilter_key_notin xs seen e he
        rw [hkey] at hc
        exact absurd hc hnotin
      · exact ih hx.2 seen e he e' he' hkey
    · rw [if_neg hc] at he
      rcases List.mem_cons.mp he with rfl | he
      · rcases List.mem_cons.mp he' with rfl | he'
        · exact le_refl _
        · exact hx.1 e' he'
      · have hnotin := uniqueOnlyFilter_key_notin xs _ e he
        have hne : applicant_key e.2 ≠ applicant_key x.2 := by
          intro hcontra
          exact hnotin (by rw [hcontra]; exact List.mem_cons_self _ _)
        rcases List.mem_cons.mp he' with rfl | he'
        · exact absurd hkey.symm hne
        · exact ih hx.2 _ e he e' he' hkey

/-- C7. A search with `unique_only = true` never returns two results whose
applicants share the same dedup key (phone, else labor id, else full name),
and each returned result carries the maximum application date among the
filtered results belonging to that applicant (the kept occurrence is the
first in date-descending order, i.e. the most recent). -/
theorem search_unique_only_spec (db : DB) (position : PyStr) (sd ed : Option Nat) :
    (searchResults db position sd ed true).Pairwise
      (fun x y => applicant_key x.2 ≠ applicant_key y.2) ∧
    (∀ e ∈ searchResults db position sd ed true,
      ∀ e' ∈ searchFiltered db position sd ed,
        e'.2 = e.2 → e'.1.application_date ≤ e.1.application_date) := by
  constructor
  · exact uniqueOnlyFilter_pairwise _ []
  · intro e he e' he' hsame
    have hsort : (searchFiltered db position sd ed).Pairwise
        (fun a b => b.1.application_date ≤ a.1.application_date) :=
      sortByDateDesc_sorted _
    exact uniqueOnlyFilter_max _ hsort [] e he e' he' (by rw [hsame])

def c7_applicant : Applicant := ⟨1, "Abel".toList, "p1".toList, []⟩

def c7_app5 : Application := ⟨1, "driver".toList, 5, "g.xlsx".toList⟩

def c7_app9 : Application := ⟨1, "driver".toList, 9, "g.xlsx".toList⟩

def c7_db : DB := ⟨[c7_applicant], [c7_app5, c7_app9], 2⟩

/-- C7 witness: one applicant with two matching applications; the collapsed
result has pairwise-distinct keys and keeps the date-9 occurrence, which
dominates the date-5 one. -/
theorem search_unique_only_witness :
    (searchResults c7_db "driver".toList none none true).Pairwise
      (fun x y => applicant_key x.2 ≠ applicant_key y.2) ∧
    (c7_app5, c7_applicant).1.application_date ≤
      (c7_app9, c7_applicant).1.application_date :=
  ⟨(search_unique_only_spec c7_db "driver".toList none none).1,
   (search_unique_only_spec c7_db "driver".toList none none).2
     (c7_app9, c7_applicant) (by decide) (c7_app5, c7_applicant) (by decide) rfl⟩

/-- An outcome is a client error when the handler answered with an HTTP 4xx
status. -/
def isClientError : Except SearchError SearchOut → Bool
  | .error (.http c _) => 400 ≤ c && c < 500
  | _ => false

def c8_db : DB := ⟨[], [], 1⟩

/-- C8 counterexample: a `/search` request with the malformed start date
"banana" fails, but not with a client error — the `strptime` `ValueError` is
not caught by the handler (its `try` has only a `finally`), so it escapes as
an unhandled exception, which the framework answers as an HTTP 500 server
error.  Nothing is persisted. -/
theorem search_bad_date_counterexample :
    (search_applicants c8_db "driver".toList (some "banana".toList) none false
      "json".toList).1 = .error (.valueError strptimeMsg) ∧
    isClientError (search_applicants c8_db "driver".toList (some "banana".toList)
      none false "json".toList).1 = false ∧
    (search_applicants c8_db "driver".toList (some "banana".toList) none false
      "json".toList).2 = c8_db :=
  ⟨rfl, rfl, rfl⟩

/-- C8 (amended). A `/search` request whose non-empty `start_date` or
`end_date` form field fails to parse as an ISO calendar date aborts with the
uncaught `strptime` `ValueError` — surfaced by the framework as a server
error, not as a descriptive client error — and nothing is persisted: the
store is returned unchanged. -/
theorem search_bad_date_unhandled :
    (∀ (db : DB) (pos s : PyStr) (ed : Option PyStr) (uo : Bool) (fmt : PyStr),
      s ≠ [] → parseDate s = none →
      search_applicants db pos (some s) ed uo fmt =
        (.error (.valueError strptimeMsg), db)) ∧
    (∀ (db : DB) (pos e : PyStr) (sd : Option PyStr) (d : Option Nat)
        (uo : Bool) (fmt : PyStr),
      parseFormDate sd = .ok d → e ≠ [] → parseDate e = none →
      search_applicants db pos sd (some e) uo fmt =
        (.error (.valueError strptimeMsg), db)) := by
  constructor
  · intro db pos s ed uo fmt hs hparse
    have h1 : parseFormDate (some s) = .error (.valueError strptimeMsg) := by
      show (if s ≠ [] then
          (match parseDate s with
            | some d => Except.ok (some d)
            | none => Except.error (SearchError.valueError strptimeMsg))
        else Except.ok none) = Except.error (SearchError.valueError strptimeMsg)
      rw [if_pos hs, hparse]
    unfold search_applicants
    rw [h1]
  · intro db pos e sd d uo fmt hsd he hparse
    have h1 : parseFormDate (some e) = .error (.valueError strptimeMsg) := by
      show (if e ≠ [] then
          (match parseDate e with
            | some d => Except.ok (some d)
            | none => Except.error (SearchError.valueError strptimeMsg))
        else Except.ok none) = Except.error (SearchError.valueError strptimeMsg)
      rw [if_pos he, hparse]
    unfold search_applicants
    rw [hsd, h1]

/-- C8 witness: a malformed start date, and a malformed end date behind a
well-formed start date. -/
theorem search_bad_date_unhandled_witness :
    search_applicants c8_db "driver".toList (some "2024/01/01".toList) none false
      "json".toList = (.error (.valueError strptimeMsg), c8_db) ∧
    search_applicants c8_db "driver".toList (some "2024-01-01".toList)
      (some "2024-13-99".toList) false "json".toList =
      (.error (.valueError strptimeMsg), c8_db) :=
  ⟨search_bad_date_unhandled.1 c8_db "driver".toList "2024/01/01".toList none false
      "json".toList (by decide) (by decide),
   search_bad_date_unhandled.2 c8_db "driver".toList "2024-13-99".toList
      (some "2024-01-01".toList) (some 20240101) false "json".toList
      rfl (by decide) (by decide)⟩
